import Mathlib

/-!
Verification development for the gitignore pattern library (src/index.ts).

The TypeScript source is shallowly embedded: strings are `List Char`
(Unicode scalar sequences), the JavaScript string primitives used by the
source (`trim`, `trimEnd`, `split(/\r?\n/)`, `indexOf`, `startsWith`,
first-occurrence `replace`, per-character-class `replaceAll`) are embedded
as executable functions, `new RegExp` is embedded as a parser for the
regular-expression sublanguage the library emits together with an
executable matcher for `RegExp.prototype.test`, and the single file-system
access of `parsePath` is embedded as an explicit `FileSystem` record.
-/

namespace Gitignore

/-- Whitespace recognised by the ECMAScript `trim` and `trimEnd` operations
(WhiteSpace together with LineTerminator code points). -/
def jsWhitespaceChars : List Char :=
  [' ', '\t', '\n', '\x0d', '\x0b', '\x0c', '\u00a0', '\ufeff',
   '\u1680', '\u2000', '\u2001', '\u2002', '\u2003', '\u2004', '\u2005',
   '\u2006', '\u2007', '\u2008', '\u2009', '\u200a', '\u2028', '\u2029',
   '\u202f', '\u205f', '\u3000']

/-- Test whether a character is ECMAScript whitespace. -/
def jsIsWhitespace (c : Char) : Bool := jsWhitespaceChars.contains c

/-- Embedding of `String.prototype.trimEnd`. -/
def trimEndL (s : List Char) : List Char :=
  (s.reverse.dropWhile jsIsWhitespace).reverse

/-- Embedding of `String.prototype.trim`. -/
def trimL (s : List Char) : List Char :=
  ((s.dropWhile jsIsWhitespace).reverse.dropWhile jsIsWhitespace).reverse

/-- Embedding of `content.split(/\r?\n/)`: a line break is a bare newline or
a carriage-return-newline pair; a lone carriage return is not a separator. -/
def splitLines : List Char → List (List Char)
  | [] => [[]]
  | '\x0d' :: '\n' :: rest => [] :: splitLines rest
  | '\n' :: rest => [] :: splitLines rest
  | c :: rest =>
    match splitLines rest with
    | [] => [[c]]
    | l :: ls => (c :: l) :: ls

/-- Embedding of the check `value && !value.startsWith('#')` performed on a
trimmed line by `parse`. -/
def keepLine (v : List Char) : Bool :=
  match v with
  | [] => false
  | c :: _ => c != '#'

/-- Options record of `parse`; `none` models an absent `dedupe` field,
defaulted by `options.dedupe ?? true`. -/
structure ParseOptions where
  dedupe : Option Bool := none

/-- Helper for `dedupe`: insertion-ordered elimination of values already
seen, the behaviour of iterating a JavaScript `Set`. -/
def dedupeGo : List (List Char) → List (List Char) → List (List Char)
  | _, [] => []
  | seen, p :: rest =>
    if p ∈ seen then dedupeGo seen rest else p :: dedupeGo (p :: seen) rest

/-- Embedding of `dedupe`: `[...new Set(patterns)]`, keeping the first
occurrence of each value and otherwise preserving order. -/
def dedupe (patterns : List (List Char)) : List (List Char) :=
  dedupeGo [] patterns

/-- Embedding of `parse`: split into lines, trim each line, drop blank and
comment lines, and optionally dedupe (default on). -/
def parse (content : List Char) (options : ParseOptions := {}) :
    List (List Char) :=
  let patterns := ((splitLines content).map trimL).filter keepLine
  if options.dedupe.getD true then dedupe patterns else patterns

/-- Options record of `parsePath`. -/
structure ParsePathOptions where
  dedupe : Option Bool := none
  strict : Option Bool := none

/-- Explicit model of the `node:fs` collaborator used by `parsePath`:
`existsSync` and `readFileSync` over path strings. -/
structure FileSystem where
  existsSync : List Char → Bool
  readFileSync : List Char → List Char

/-- Error message built by `parsePath` for a missing file:
the template literal `"${filepath}": invalid file path.`. -/
def invalidFileMessage (filepath : List Char) : List Char :=
  '"' :: filepath ++ ("\": invalid file path.".toList)

/-- Embedding of `parsePath`: on a missing path, throw (modelled as
`Except.error`) when `strict` (default true), otherwise return `[]`;
on an existing path, delegate to `parse` on the file's content. -/
def parsePath (fsys : FileSystem) (filepath : List Char)
    (options : ParsePathOptions := {}) :
    Except (List Char) (List (List Char)) :=
  let strict := options.strict.getD true
  if fsys.existsSync filepath then
    .ok (parse (fsys.readFileSync filepath) ⟨options.dedupe⟩)
  else if strict then
    .error (invalidFileMessage filepath)
  else
    .ok []

/-- Embedding of the sticky-global `replaceAll` of
`convertIgnorePatternToMinimatch`,
`pattern.replaceAll(/(?=((?:\\.|[^{(])*))\1([{(])/guy, '$1\\$2')`:
scanning left to right, a backslash and the character after it are passed
over as a unit (the lookahead's `\\.` alternative, preferred by the
ECMAScript first-match rule for the atomic lookahead), and every brace or
parenthesis reached outside such a pair receives a preceding backslash,
after which the scan resumes immediately after it (sticky advancement). -/
def escapeBraces : List Char → List Char
  | [] => []
  | c :: rest =>
    if c = '\\' then
      match rest with
      | [] => [c]
      | d :: rest2 => c :: d :: escapeBraces rest2
    else if c = '{' ∨ c = '(' then '\\' :: c :: escapeBraces rest
    else c :: escapeBraces rest

/-- Special-case patterns returned unchanged by
`convertIgnorePatternToMinimatch`. -/
def specialCases : List (List Char) :=
  [[], "**".toList, "/**".toList, "**/".toList]

/-- The `patternToTest` local of `convertIgnorePatternToMinimatch`: the
pattern with a leading `!` removed and trailing whitespace trimmed. -/
def patternToTest (pattern : List Char) : List Char :=
  trimEndL (if pattern.head? = some '!' then pattern.tail else pattern)

/-- The `negatedPrefix` local of `convertIgnorePatternToMinimatch`. -/
def negationMark (pattern : List Char) : List Char :=
  if pattern.head? = some '!' then ['!'] else []

/-- The `firstIndexOfSlash` local: `patternToTest.indexOf('/')`, with
`none` standing for the JavaScript result `-1`. -/
def firstIndexOfSlash (t : List Char) : Option Nat :=
  match t with
  | [] => none
  | c :: rest =>
    if c = '/' then some 0 else (firstIndexOfSlash rest).map (· + 1)

/-- The `matchEverywherePrefix` local: `**/` when the pattern has no slash
or its first slash is its final character, else empty. -/
def matchEverywhereMark (t : List Char) : List Char :=
  match firstIndexOfSlash t with
  | none => "**/".toList
  | some i => if i = t.length - 1 then "**/".toList else []

/-- The `patternWithoutLeadingSlash` local. -/
def withoutLeadingSlash (t : List Char) : List Char :=
  if firstIndexOfSlash t = some 0 then t.tail else t

/-- The `matchInsideSuffix` local: `/*` when the pattern (before slash
stripping) ends with `/**`, else empty. -/
def matchInsideMark (t : List Char) : List Char :=
  if ("/**".toList).isSuffixOf t then "/*".toList else []

/-- Embedding of `convertIgnorePatternToMinimatch`. -/
def convertIgnorePatternToMinimatch (pattern : List Char) : List Char :=
  if patternToTest pattern ∈ specialCases then
    negationMark pattern ++ patternToTest pattern
  else
    negationMark pattern
      ++ matchEverywhereMark (patternToTest pattern)
      ++ escapeBraces (withoutLeadingSlash (patternToTest pattern))
      ++ matchInsideMark (patternToTest pattern)

/-- Options record of `toFlatConfig`. -/
structure ParseFlatOptions where
  name : Option (List Char) := none

/-- Result record of `toFlatConfig`. -/
structure FlatConfig where
  name : List Char
  ignores : List (List Char)
deriving DecidableEq

/-- Embedding of `toFlatConfig`. -/
def toFlatConfig (patterns : List (List Char))
    (options : ParseFlatOptions := {}) : FlatConfig :=
  ⟨options.name.getD ("gitignore".toList),
   patterns.map convertIgnorePatternToMinimatch⟩

/-- Helper for the string form of `String.prototype.replace`: locate the
first occurrence of `pat` in `s`, returning the text before it and the
text after it. -/
def splitFirst (s pat : List Char) : Option (List Char × List Char) :=
  if pat.isPrefixOf s then some ([], s.drop pat.length)
  else
    match s with
    | [] => none
    | c :: rest => (splitFirst rest pat).map (fun ab => (c :: ab.1, ab.2))

/-- Embedding of `String.prototype.replace` with a string search value:
replace the first occurrence only, or return the string unchanged. -/
def replaceFirst (s pat rep : List Char) : List Char :=
  match splitFirst s pat with
  | some (a, b) => a ++ rep ++ b
  | none => s

/-- Character class of the `replaceAll(/[$()+.\/?[\\\]^{|}\-]/g, '\\$&')`
step of `prepareRegexPattern`. -/
def regexMetaChars : List Char :=
  ['$', '(', ')', '+', '.', '/', '?', '[', '\\', ']', '^', '{', '|', '}', '-']

/-- Escape of one character by that `replaceAll`: characters of the class
gain a preceding backslash, all others pass through. -/
def escTok (c : Char) : List Char :=
  if regexMetaChars.contains c then ['\\', c] else [c]

/-- Embedding of the escaping step of `prepareRegexPattern`: the global
single-character-class `replaceAll` acts independently on each character. -/
def escapeRegexChars (p : List Char) : List Char := p.flatMap escTok

/-- Replacement text for the first `**`: the source string `(.+)`. -/
def anyToken : List Char := "(.+)".toList

/-- Replacement text for the first `*`: the source string `([^\/]+)`
(the JavaScript literal `'([^\\/]+)'`). -/
def notSlashToken : List Char := "([^\\/]+)".toList

/-- Embedding of `prepareRegexPattern`: escape the regex metacharacters,
then replace the first occurrence of `**`, then the first occurrence of
`*`. -/
def prepareRegexPattern (pattern : List Char) : List Char :=
  replaceFirst
    (replaceFirst (escapeRegexChars pattern) ("**".toList) anyToken)
    ("*".toList) notSlashToken

/-- Abstract syntax of the regular-expression sublanguage emitted by
`toRegex`: literals, the dot, character classes, the two anchors, groups,
concatenation, alternation, and the star and plus quantifiers. -/
inductive Regex where
  | epsilon
  | lit (c : Char)
  | dot
  | cls (neg : Bool) (members : List Char)
  | startAnchor
  | endAnchor
  | group (r : Regex)
  | seq (r1 r2 : Regex)
  | alt (r1 r2 : Regex)
  | star (r : Regex)
  | plus (r : Regex)
deriving DecidableEq, Repr

/-- Attach a postfix quantifier to a parsed atom when the next character is
`*` or `+` (the only quantifiers occurring in emitted patterns); a second
quantifier character is not consumed, so it makes the enclosing parse fail
just as `new RegExp` rejects a quantifier with nothing to repeat. -/
def applyQuant (r : Regex) (rest : List Char) : Regex × List Char :=
  match rest with
  | [] => (r, [])
  | c :: rest2 =>
    if c = '*' then (.star r, rest2)
    else if c = '+' then (.plus r, rest2)
    else (r, c :: rest2)

/-- Test for the characters at which a regex alternative ends. -/
def isStop (cs : List Char) : Bool :=
  match cs with
  | [] => true
  | c :: _ => c = '|' ∨ c = ')'

/-- Test for the characters that cannot begin a term: a quantifier with
nothing to repeat, an alternation bar, or a group close. -/
def isTermStop (c : Char) : Bool :=
  c = '*' ∨ c = '+' ∨ c = '?' ∨ c = '|' ∨ c = ')'

mutual

/-- Fueled recursive-descent parser for a disjunction, the entry
production of the `new RegExp` grammar restricted to the constructs
`toRegex` can emit. -/
def parseAlts : Nat → List Char → Option (Regex × List Char)
  | 0, _ => none
  | n + 1, cs =>
    match parseSeq n cs with
    | none => none
    | some (r, rest) =>
      if rest.head? = some '|' then
        match parseAlts n rest.tail with
        | none => none
        | some (r2, rest3) => some (.alt r r2, rest3)
      else some (r, rest)

/-- Fueled parser for one alternative: a sequence of terms ending at `|`,
`)` or the end of the input. -/
def parseSeq : Nat → List Char → Option (Regex × List Char)
  | 0, _ => none
  | n + 1, cs =>
    if isStop cs then some (.epsilon, cs)
    else
      match parseTerm n cs with
      | none => none
      | some (t, rest) =>
        match parseSeq n rest with
        | none => none
        | some (r, rest2) => some (.seq t r, rest2)

/-- Fueled parser for one term: an assertion, or an atom with an optional
quantifier; a quantifier character with no preceding atom is a syntax
error, as in `new RegExp`. -/
def parseTerm : Nat → List Char → Option (Regex × List Char)
  | 0, _ => none
  | n + 1, cs =>
    match cs with
    | [] => none
    | c :: rest =>
      if c = '^' then some (.startAnchor, rest)
      else if c = '$' then some (.endAnchor, rest)
      else if c = '\\' then
        match rest with
        | [] => none
        | d :: rest2 => some (applyQuant (.lit d) rest2)
      else if c = '(' then
        match parseAlts n rest with
        | none => none
        | some (r, rest2) =>
          if rest2.head? = some ')' then
            some (applyQuant (.group r) rest2.tail)
          else none
      else if c = '[' then
        if rest.head? = some '^' then
          match parseClassBody n rest.tail with
          | none => none
          | some (ms, rest2) => some (applyQuant (.cls true ms) rest2)
        else
          match parseClassBody n rest with
          | none => none
          | some (ms, rest2) => some (applyQuant (.cls false ms) rest2)
      else if c = '.' then some (applyQuant .dot rest)
      else if isTermStop c then none
      else some (applyQuant (.lit c) rest)

/-- Fueled parser for the members of a character class up to the closing
bracket, with `\c` read as the escaped character. -/
def parseClassBody : Nat → List Char → Option (List Char × List Char)
  | 0, _ => none
  | n + 1, cs =>
    match cs with
    | [] => none
    | c :: rest =>
      if c = ']' then some ([], rest)
      else if c = '\\' then
        match rest with
        | [] => none
        | d :: rest2 =>
          match parseClassBody n rest2 with
          | none => none
          | some (ms, rest3) => some (d :: ms, rest3)
      else
        match parseClassBody n rest with
        | none => none
        | some (ms, rest2) => some (c :: ms, rest2)

end

/-- Embedding of `new RegExp(src)` on the emitted sublanguage: parse the
whole source string, failing (the thrown `SyntaxError`) when the grammar
rejects it. -/
def parseRegex (src : List Char) : Option Regex :=
  match parseAlts (3 * src.length + 3) src with
  | some (r, []) => some r
  | _ => none

/-- ECMAScript line terminators, not matched by the dot. -/
def isLineTerm (c : Char) : Bool :=
  c = '\n' ∨ c = '\x0d' ∨ c = '\u2028' ∨ c = '\u2029'

/-- Size of a regex tree, used to bound the matcher's fuel. -/
def regexSize : Regex → Nat
  | .epsilon => 1
  | .lit _ => 1
  | .dot => 1
  | .cls _ _ => 1
  | .startAnchor => 1
  | .endAnchor => 1
  | .group r => regexSize r + 1
  | .seq r1 r2 => regexSize r1 + regexSize r2 + 1
  | .alt r1 r2 => regexSize r1 + regexSize r2 + 1
  | .star r => regexSize r + 1
  | .plus r => regexSize r + 1

/-- Fueled matcher: the end positions reachable when `r` matches a portion
of `s` beginning at position `i`.  Anchors consult the absolute position;
a star iteration must make progress, mirroring the ECMAScript rule that a
repetition matching the empty string ends the loop. -/
def ends (s : List Char) : Nat → Regex → Nat → List Nat
  | 0, _, _ => []
  | n + 1, r, i =>
    match r with
    | .epsilon => [i]
    | .lit c =>
      match s[i]? with
      | some c2 => if c2 = c then [i + 1] else []
      | none => []
    | .dot =>
      match s[i]? with
      | some c2 => if isLineTerm c2 then [] else [i + 1]
      | none => []
    | .cls neg ms =>
      match s[i]? with
      | some c2 => if ms.contains c2 ≠ neg then [i + 1] else []
      | none => []
    | .startAnchor => if i = 0 then [i] else []
    | .endAnchor => if i = s.length then [i] else []
    | .group r1 => ends s n r1 i
    | .seq r1 r2 => (ends s n r1 i).flatMap (fun j => ends s n r2 j)
    | .alt r1 r2 => ends s n r1 i ++ ends s n r2 i
    | .star r1 =>
      i :: ((ends s n r1 i).filter (fun j => i < j)).flatMap
        (fun j => ends s n (.star r1) j)
    | .plus r1 => (ends s n r1 i).flatMap (fun j => ends s n (.star r1) j)

/-- Fuel sufficient for the matcher on input `s`. -/
def matchFuel (r : Regex) (s : List Char) : Nat :=
  (regexSize r + 2) * (s.length + 2)

/-- Embedding of `RegExp.prototype.test`: search for a match beginning at
any position of the candidate string. -/
def rtest (r : Regex) (s : List Char) : Bool :=
  (List.range (s.length + 1)).any
    (fun i => !(ends s (matchFuel r s) r i).isEmpty)

/-- Match attempted only at position 0, the reading of the specification's
anchored prefix test. -/
def matchAt0 (r : Regex) (s : List Char) : Bool :=
  !(ends s (matchFuel r s) r 0).isEmpty

/-- The compiled pair returned by `toRegex`. -/
structure ParsePatternsRegex where
  accepts : Regex
  ignores : Regex
deriving DecidableEq, Repr

/-- Model of the sentinel literal `/$^/` used for an empty partition. -/
def sentinelAST : Regex := .seq .endAnchor .startAnchor

/-- Embedding of the partition loop of `toRegex`: `!`-prefixed patterns go
to the accept list (with the `!` and then one leading `/` stripped), all
others to the ignore list (with one leading `/` stripped), in order. -/
def partitionPatterns : List (List Char) → List (List Char) × List (List Char)
  | [] => ([], [])
  | p :: rest =>
    let withExclamation := p.head? = some '!'
    let p1 := if withExclamation then p.tail else p
    let p2 := if p1.head? = some '/' then p1.tail else p1
    let parts := partitionPatterns rest
    if withExclamation then (p2 :: parts.1, parts.2) else (parts.1, p2 :: parts.2)

/-- Embedding of `Array.prototype.join(')|(')` on the prepared patterns. -/
def joinSep : List (List Char) → List Char
  | [] => []
  | [p] => p
  | p :: rest => p ++ ")|(".toList ++ joinSep rest

/-- Source string assembled by `toRegex` for a non-empty partition: the
template literal `^(${list.map(prepareRegexPattern).join(')|(')})`. -/
def buildSrc (ps : List (List Char)) : List Char :=
  "^(".toList ++ joinSep (ps.map prepareRegexPattern) ++ ")".toList

/-- Embedding of `toRegex`: compile each non-empty partition's assembled
source with `new RegExp` (`none` models the thrown `SyntaxError`), and use
the sentinel for an empty partition. -/
def toRegex (patterns : List (List Char)) : Option ParsePatternsRegex :=
  let parts := partitionPatterns patterns
  match
    (if parts.1.length > 0 then parseRegex (buildSrc parts.1)
     else some sentinelAST),
    (if parts.2.length > 0 then parseRegex (buildSrc parts.2)
     else some sentinelAST) with
  | some a, some i => some ⟨a, i⟩
  | _, _ => none

/-- The slash stripping `ignore` applies to its candidate. -/
def stripSlash (pattern : List Char) : List Char :=
  if pattern.head? = some '/' then pattern.tail else pattern

/-- Embedding of `ignore`: the candidate (with one leading `/` stripped)
is ignored when the ignore expression matches it and the accept expression
does not. -/
def ignore (regex : ParsePatternsRegex) (pattern : List Char) : Bool :=
  rtest regex.ignores (stripSlash pattern)
    && !(rtest regex.accepts (stripSlash pattern))

/-- Result of `toRegex` mapped through `ignore` at one candidate, for
stating concrete evaluations without naming the compiled tree. -/
def ignoreOf (ps : List (List Char)) (p : List Char) : Option Bool :=
  (toRegex ps).map (fun r => ignore r p)

/-! ## Claim C4: independent left-to-right escaping of braces and parens -/

/-- Specification-side restatement of the escaping rule: walking left to
right while tracking whether the characters immediately before the current
one form an odd run of backslashes, every `{` or `(` preceded by an even
(possibly empty) run gains a preceding backslash and every other character
is kept unchanged. -/
def escapeOddRun : Bool → List Char → List Char
  | _, [] => []
  | odd, c :: rest =>
    if c = '\\' then c :: escapeOddRun (!odd) rest
    else if (c = '{' ∨ c = '(') ∧ odd = false then
      '\\' :: c :: escapeOddRun false rest
    else c :: escapeOddRun false rest

theorem escapeBraces_nil : escapeBraces [] = [] := rfl

theorem escapeBraces_bs_nil : escapeBraces ['\\'] = ['\\'] := rfl

theorem escapeBraces_bs_cons (d : Char) (rest : List Char) :
    escapeBraces ('\\' :: d :: rest) = '\\' :: d :: escapeBraces rest := rfl

theorem escapeBraces_cons (c : Char) (rest : List Char) (hc : c ≠ '\\') :
    escapeBraces (c :: rest)
      = if c = '{' ∨ c = '(' then '\\' :: c :: escapeBraces rest
        else c :: escapeBraces rest := by
  rw [escapeBraces.eq_def]
  simp only [if_neg hc]

theorem escapeOddRun_cons (b : Bool) (c : Char) (rest : List Char) :
    escapeOddRun b (c :: rest)
      = if c = '\\' then c :: escapeOddRun (!b) rest
        else if (c = '{' ∨ c = '(') ∧ b = false then
          '\\' :: c :: escapeOddRun false rest
        else c :: escapeOddRun false rest := rfl

theorem escapeBraces_eq_escapeOddRun (cs : List Char) :
    escapeBraces cs = escapeOddRun false cs := by
  generalize hn : cs.length = n
  induction n using Nat.strong_induction_on generalizing cs with
  | _ n ih =>
  cases cs with
  | nil => rfl
  | cons c rest =>
    subst hn
    by_cases hc : c = '\\'
    · subst hc
      cases rest with
      | nil => rfl
      | cons d rest2 =>
        have ihr : escapeBraces rest2 = escapeOddRun false rest2 :=
          ih rest2.length (by simp only [List.length_cons]; omega) rest2 rfl
        rw [escapeBraces_bs_cons, escapeOddRun_cons]
        simp only [if_pos rfl]
        rw [escapeOddRun_cons]
        by_cases hd : d = '\\'
        · subst hd; simp [ihr]
        · have hnb : ¬((d = '{' ∨ d = '(') ∧ (!false) = false) := by simp
          simp [hd, hnb, ihr]
    · have ihr : escapeBraces rest = escapeOddRun false rest :=
        ih rest.length (by simp only [List.length_cons]; omega) rest rfl
      rw [escapeBraces_cons c rest hc, escapeOddRun_cons]
      by_cases hb : c = '{' ∨ c = '('
      · simp [hc, hb, ihr]
      · simp [hc, hb, ihr]

/-- Claim C4: in `convertIgnorePatternToMinimatch`, every `{` or `(` not
already escaped (not preceded by an odd run of backslashes) gains a
preceding backslash, each occurrence decided independently left to right,
and already-escaped occurrences are left exactly as they are; in
particular `src/{a,b}.js` becomes `src/\{a,b}.js` and `src/\{a}` is
returned unchanged. -/
theorem c4_brace_escaping (cs : List Char) :
    escapeBraces cs = escapeOddRun false cs
    ∧ convertIgnorePatternToMinimatch ("src/\x7ba,b\x7d.js".toList)
        = "src/\\\x7ba,b\x7d.js".toList
    ∧ convertIgnorePatternToMinimatch ("src/\\\x7ba\x7d".toList)
        = "src/\\\x7ba\x7d".toList := by
  refine ⟨escapeBraces_eq_escapeOddRun cs, by decide, by decide⟩

/-! ## Claim C3: anchoring condition of `convertIgnorePatternToMinimatch` -/

/-- Condition of the specification for the `**/` anchor: the pattern text
contains no `/`, or its only `/` is its final character. -/
def slashFreeOrFinal (t : List Char) : Bool :=
  t.count '/' == 0 || (t.count '/' == 1 && t.getLast? == some '/')

theorem firstIndexOfSlash_lt (t : List Char) (i : Nat)
    (h : firstIndexOfSlash t = some i) : i < t.length := by
  induction t generalizing i with
  | nil => simp [firstIndexOfSlash] at h
  | cons c rest ih =>
    rw [firstIndexOfSlash] at h
    by_cases hc : c = '/'
    · rw [if_pos hc] at h
      cases h
      simp
    · rw [if_neg hc] at h
      cases hr : firstIndexOfSlash rest with
      | none => rw [hr] at h; simp at h
      | some j =>
        rw [hr] at h
        simp only [Option.map_some'] at h
        cases h
        have := ih j hr
        simp only [List.length_cons]
        omega

theorem getLast?_mem_of_eq {l : List Char} {a : Char}
    (h : l.getLast? = some a) : a ∈ l := by
  induction l with
  | nil => simp at h
  | cons c rest ih =>
    cases rest with
    | nil => simp only [List.getLast?_singleton, Option.some.injEq] at h; simp [h]
    | cons d rest2 =>
      rw [List.getLast?_cons_cons] at h
      exact List.mem_cons_of_mem c (ih h)

theorem matchEverywhereMark_eq (t : List Char) :
    matchEverywhereMark t
      = match firstIndexOfSlash t with
        | none => "**/".toList
        | some i => if i = t.length - 1 then "**/".toList else [] := rfl

theorem matchEverywhereMark_eq_spec (t : List Char) :
    matchEverywhereMark t
      = if slashFreeOrFinal t then "**/".toList else [] := by
  induction t with
  | nil => rfl
  | cons c rest ih =>
    by_cases hc : c = '/'
    · subst hc
      cases rest with
      | nil => rfl
      | cons d rest2 =>
        have hm : matchEverywhereMark ('/' :: d :: rest2) = [] := by
          simp [matchEverywhereMark, firstIndexOfSlash]
        rw [hm]
        have hcount : ¬ slashFreeOrFinal ('/' :: d :: rest2) = true := by
          intro hsf
          rw [slashFreeOrFinal] at hsf
          simp only [Bool.or_eq_true, beq_iff_eq, Bool.and_eq_true] at hsf
          rcases hsf with h1 | ⟨h1, h2⟩
          · simp [List.count_cons] at h1
          · have hc2 : (d :: rest2).getLast? = some '/' := by
              rwa [List.getLast?_cons_cons] at h2
            have hmem : '/' ∈ d :: rest2 := getLast?_mem_of_eq hc2
            have hpos : 1 ≤ (d :: rest2).count '/' :=
              List.one_le_count_iff.mpr hmem
            simp [List.count_cons] at h1
            rw [List.count_cons] at hpos
            simp [h1.1, h1.2] at hpos
        simp [hcount]
    · rw [matchEverywhereMark_eq, firstIndexOfSlash, if_neg hc]
      have hcons : slashFreeOrFinal (c :: rest) = slashFreeOrFinal rest ∨
          (rest = [] ∧ slashFreeOrFinal (c :: rest) = true) := by
        cases rest with
        | nil =>
          right
          refine ⟨rfl, ?_⟩
          rw [slashFreeOrFinal]
          simp [List.count_cons, hc]
        | cons d rest2 =>
          left
          rw [slashFreeOrFinal, slashFreeOrFinal]
          rw [List.getLast?_cons_cons]
          have : (c :: d :: rest2).count '/' = (d :: rest2).count '/' := by
            simp [List.count_cons, hc]
          rw [this]
      cases hr : firstIndexOfSlash rest with
      | none =>
        simp only [Option.map_none']
        have hrc : rest.count '/' = 0 := by
          by_contra hne
          have hmem : '/' ∈ rest := by
            by_contra hnm
            have : rest.count '/' = 0 := by
              rcases Nat.eq_zero_or_pos (rest.count '/') with h | h
              · exact h
              · exact absurd (List.count_pos_iff.mp h) hnm
            exact hne this
          exfalso
          clear hcons ih hne
          induction rest with
          | nil => simp at hmem
          | cons d rest2 ih2 =>
            rw [firstIndexOfSlash] at hr
            by_cases hd : d = '/'
            · rw [if_pos hd] at hr; simp at hr
            · rw [if_neg hd] at hr
              rcases List.mem_cons.mp hmem with h3 | h3
              · exact hd h3.symm
              · cases hr2 : firstIndexOfSlash rest2 with
                | none => exact ih2 hr2 h3
                | some j => rw [hr2] at hr; simp at hr
        have hsf : slashFreeOrFinal (c :: rest) = true := by
          rw [slashFreeOrFinal]
          simp [List.count_cons, hc, hrc]
        simp [hsf]
      | some j =>
        simp only [Option.map_some']
        have hlt := firstIndexOfSlash_lt rest j hr
        have hrestne : rest ≠ [] := by
          intro h; subst h; simp at hlt
        rcases hcons with h1 | ⟨h2, _⟩
        · rw [h1]
          rw [matchEverywhereMark_eq, hr] at ih
          have ih2 : (if j = rest.length - 1 then "**/".toList else ([] : List Char))
              = if slashFreeOrFinal rest = true then "**/".toList else [] := ih
          by_cases hj : j = rest.length - 1
          · have hj2 : j + 1 = (c :: rest).length - 1 := by
              simp only [List.length_cons]; omega
            rw [if_pos hj] at ih2
            rw [if_pos hj2]
            cases hsf : slashFreeOrFinal rest with
            | false => rw [hsf] at ih2; simp at ih2
            | true => simp
          · have hj2 : ¬(j + 1 = (c :: rest).length - 1) := by
              simp only [List.length_cons]; omega
            rw [if_neg hj] at ih2
            rw [if_neg hj2]
            cases hsf : slashFreeOrFinal rest with
            | false => simp
            | true => rw [hsf] at ih2; simp at ih2
        · exact absurd h2 hrestne

/-- Claim C3: outside the special cases, the translated pattern is the
negation mark, then `**/` exactly when the trimmed text has no slash or
its only slash is its final character, then the escaped body (with one
leading slash stripped), then the `/**`-suffix compensation; in particular
`src`, `src/`, `a/b` and `!src` translate as stated. -/
theorem c3_anchoring (p : List Char)
    (h : patternToTest p ∉ specialCases) :
    convertIgnorePatternToMinimatch p
      = negationMark p
        ++ (if slashFreeOrFinal (patternToTest p) then "**/".toList else [])
        ++ escapeBraces (withoutLeadingSlash (patternToTest p))
        ++ matchInsideMark (patternToTest p)
    ∧ convertIgnorePatternToMinimatch ("src".toList) = "**/src".toList
    ∧ convertIgnorePatternToMinimatch ("src/".toList) = "**/src/".toList
    ∧ convertIgnorePatternToMinimatch ("a/b".toList) = "a/b".toList
    ∧ convertIgnorePatternToMinimatch ("!src".toList) = "!**/src".toList := by
  refine ⟨?_, by decide, by decide, by decide, by decide⟩
  rw [convertIgnorePatternToMinimatch, if_neg h,
    matchEverywhereMark_eq_spec]

/-- Witness for C3 at the pattern `src`. -/
theorem c3_anchoring_witness :
    convertIgnorePatternToMinimatch ("src".toList)
      = negationMark ("src".toList)
        ++ (if slashFreeOrFinal (patternToTest ("src".toList))
            then "**/".toList else [])
        ++ escapeBraces (withoutLeadingSlash (patternToTest ("src".toList)))
        ++ matchInsideMark (patternToTest ("src".toList)) :=
  (c3_anchoring ("src".toList) (by decide)).1

/-! ## Claim C5: the `/**` suffix compensation -/

/-- Claim C5: when the trimmed pattern (before leading-slash stripping)
ends with `/**` and is not a special case, the translation appends `/*`
to the result; in particular `src/**` becomes `src/**/*`. -/
theorem c5_recursion_suffix (p : List Char)
    (h1 : patternToTest p ∉ specialCases)
    (h2 : "/**".toList <:+ patternToTest p) :
    convertIgnorePatternToMinimatch p
      = (negationMark p
          ++ matchEverywhereMark (patternToTest p)
          ++ escapeBraces (withoutLeadingSlash (patternToTest p)))
        ++ "/*".toList
    ∧ convertIgnorePatternToMinimatch ("src/**".toList)
        = "src/**/*".toList := by
  refine ⟨?_, by decide⟩
  have hmark : matchInsideMark (patternToTest p) = "/*".toList := by
    rw [matchInsideMark, if_pos (List.isSuffixOf_iff_suffix.mpr h2)]
  rw [convertIgnorePatternToMinimatch, if_neg h1, hmark]

/-- Witness for C5 at the pattern `src/**`. -/
theorem c5_recursion_suffix_witness :
    convertIgnorePatternToMinimatch ("src/**".toList)
      = (negationMark ("src/**".toList)
          ++ matchEverywhereMark (patternToTest ("src/**".toList))
          ++ escapeBraces (withoutLeadingSlash (patternToTest ("src/**".toList))))
        ++ "/*".toList :=
  (c5_recursion_suffix ("src/**".toList) (by decide) (by decide)).1

/-! ## Claim C7: parse produces clean patterns; dedupe commutes -/

theorem dedupeGo_sublist (seen l : List (List Char)) :
    (dedupeGo seen l).Sublist l := by
  induction l generalizing seen with
  | nil => simp [dedupeGo]
  | cons p rest ih =>
    rw [dedupeGo]
    by_cases hp : p ∈ seen
    · rw [if_pos hp]
      exact (ih seen).trans (List.sublist_cons_self p rest)
    · rw [if_neg hp]
      exact List.Sublist.cons₂ p (ih (p :: seen))

theorem dedupeGo_congr (s1 s2 l : List (List Char))
    (h : ∀ x, x ∈ s1 ↔ x ∈ s2) : dedupeGo s1 l = dedupeGo s2 l := by
  induction l generalizing s1 s2 with
  | nil => rfl
  | cons p rest ih =>
    rw [dedupeGo, dedupeGo]
    by_cases hp : p ∈ s1
    · rw [if_pos hp, if_pos ((h p).mp hp)]
      exact ih s1 s2 h
    · rw [if_neg hp, if_neg (fun hq => hp ((h p).mpr hq))]
      refine congrArg (p :: ·) (ih (p :: s1) (p :: s2) ?_)
      intro x
      simp [h x]

theorem dedupeGo_filter (c : List Char) (seen l : List (List Char)) :
    dedupeGo (c :: seen) l = dedupeGo seen (l.filter (fun b => b ≠ c)) := by
  induction l generalizing seen with
  | nil => rfl
  | cons p rest ih =>
    by_cases hpc : p = c
    · subst hpc
      rw [dedupeGo, if_pos (List.mem_cons_self p seen)]
      have : (p :: rest).filter (fun b => b ≠ p) = rest.filter (fun b => b ≠ p) := by
        simp [List.filter_cons]
      rw [this]
      exact ih seen
    · have hfil : (p :: rest).filter (fun b => b ≠ c)
          = p :: rest.filter (fun b => b ≠ c) := by
        simp [List.filter_cons, hpc]
      rw [hfil, dedupeGo, dedupeGo]
      by_cases hp : p ∈ seen
      · rw [if_pos (List.mem_cons_of_mem c hp), if_pos hp]
        exact ih seen
      · have hp2 : p ∉ c :: seen := by
          intro hmem
          rcases List.mem_cons.mp hmem with h3 | h3
          · exact hpc h3
          · exact hp h3
        rw [if_neg hp2, if_neg hp]
        refine congrArg (p :: ·) ?_
        rw [← ih (p :: seen)]
        refine dedupeGo_congr (p :: c :: seen) (c :: p :: seen) rest ?_
        intro x
        simp only [List.mem_cons]
        tauto

theorem dedupe_cons (a : List Char) (l : List (List Char)) :
    dedupe (a :: l) = a :: dedupe (l.filter (fun b => b ≠ a)) := by
  rw [dedupe, dedupeGo, if_neg (List.not_mem_nil a), dedupe]
  exact congrArg (a :: ·) (dedupeGo_filter a [] l)

/-- Claim C7: every pattern produced by `parse` is a trimmed, non-empty,
non-comment line of the input; deduplicating an undeduplicated parse gives
the deduplicated parse; and `dedupe` keeps each value's first occurrence
while preserving order (it is an order-preserving sublist whose head case
drops exactly the later duplicates of the head). -/
theorem c7_parse_clean_dedupe (x : List Char) (opts : ParseOptions) :
    (∀ v ∈ parse x opts,
      v ≠ [] ∧ v.head? ≠ some '#' ∧ ∃ line ∈ splitLines x, v = trimL line)
    ∧ dedupe (parse x ⟨some false⟩) = parse x ⟨some true⟩
    ∧ (∀ l : List (List Char), (dedupe l).Sublist l)
    ∧ (∀ (a : List Char) (l : List (List Char)),
        dedupe (a :: l) = a :: dedupe (l.filter (fun b => b ≠ a))) := by
  refine ⟨?_, rfl, fun l => dedupeGo_sublist [] l, dedupe_cons⟩
  intro v hv
  have hv2 : v ∈ ((splitLines x).map trimL).filter keepLine := by
    rw [parse] at hv
    rcases hd : opts.dedupe.getD true with _ | _
    · rwa [hd, if_neg (by simp)] at hv
    · rw [hd, if_pos rfl] at hv
      exact (dedupeGo_sublist [] _).subset hv
  have hkeep := (List.mem_filter.mp hv2).2
  have hmem := (List.mem_filter.mp hv2).1
  refine ⟨?_, ?_, ?_⟩
  · intro hnil
    subst hnil
    simp [keepLine] at hkeep
  · intro hhd
    cases v with
    | nil => simp at hhd
    | cons c rest =>
      simp only [List.head?_cons, Option.some.injEq] at hhd
      subst hhd
      simp [keepLine] at hkeep
  · rcases List.mem_map.mp hmem with ⟨line, hline, heq⟩
    exact ⟨line, hline, heq.symm⟩

/-! ## Claim C8: parsePath fails exactly on missing paths in strict mode -/

/-- Claim C8: `parsePath` fails if and only if the path does not exist and
`strict` (default true) holds; the error message is the template
`"${filepath}": invalid file path.`, which contains the filepath and the
words `invalid file`; and a missing path with `strict: false` yields the
empty list. -/
theorem c8_parse_path_errors (fsys : FileSystem) (fp : List Char)
    (opts : ParsePathOptions) :
    ((∃ msg, parsePath fsys fp opts = .error msg)
      ↔ (fsys.existsSync fp = false ∧ opts.strict.getD true = true))
    ∧ (fsys.existsSync fp = false → opts.strict.getD true = true →
        parsePath fsys fp opts = .error (invalidFileMessage fp)
        ∧ fp <:+: invalidFileMessage fp
        ∧ "invalid file".toList <:+: invalidFileMessage fp)
    ∧ (fsys.existsSync fp = false → opts.strict.getD true = false →
        parsePath fsys fp opts = .ok []) := by
  have hmsg1 : fp <:+: invalidFileMessage fp :=
    ⟨['"'], "\": invalid file path.".toList, rfl⟩
  have hdecomp : invalidFileMessage fp
      = ('"' :: fp ++ "\": ".toList) ++ "invalid file".toList
        ++ " path.".toList := by
    rw [invalidFileMessage]
    simp
  have hmsg2 : "invalid file".toList <:+: invalidFileMessage fp :=
    ⟨'"' :: fp ++ "\": ".toList, " path.".toList, by rw [hdecomp]⟩
  refine ⟨⟨?_, ?_⟩, ?_, ?_⟩
  · rintro ⟨msg, hmsg⟩
    rw [parsePath] at hmsg
    cases hex : fsys.existsSync fp with
    | true => rw [hex, if_pos rfl] at hmsg; exact absurd hmsg (by simp)
    | false =>
      rw [hex] at hmsg
      simp only [Bool.false_eq_true, if_false] at hmsg
      cases hst : opts.strict.getD true with
      | true => exact ⟨rfl, rfl⟩
      | false => rw [hst, if_neg (by simp)] at hmsg; exact absurd hmsg (by simp)
  · rintro ⟨hex, hst⟩
    refine ⟨invalidFileMessage fp, ?_⟩
    rw [parsePath, hex, hst]
    simp
  · intro hex hst
    refine ⟨?_, hmsg1, hmsg2⟩
    rw [parsePath, hex, hst]
    simp
  · intro hex hst
    rw [parsePath, hex, hst]
    simp

/-! ## Sentinel semantics and the matcher claims C9, C1, C2 -/

theorem ends_sentinel (s : List Char) (n i : Nat) (hn : 2 ≤ n) :
    ends s n sentinelAST i = if i = s.length ∧ i = 0 then [0] else [] := by
  obtain ⟨m, rfl⟩ : ∃ m, n = m + 2 := ⟨n - 2, by omega⟩
  rw [sentinelAST, ends]
  have hend : ends s (m + 1) Regex.endAnchor i
      = if i = s.length then [i] else [] := by rw [ends]
  have hstart : ends s (m + 1) Regex.startAnchor i
      = if i = 0 then [i] else [] := by rw [ends]
  rw [hend]
  by_cases hi : i = s.length
  · rw [if_pos hi]
    simp only [List.flatMap_cons, List.flatMap_nil, List.append_nil]
    rw [hstart]
    by_cases h0 : i = 0
    · rw [if_pos h0, if_pos ⟨hi, h0⟩, h0]
    · rw [if_neg h0, if_neg (fun hc => h0 hc.2)]
  · rw [if_neg hi, if_neg (fun hc => hi hc.1)]
    simp

theorem rtest_sentinel (s : List Char) :
    rtest sentinelAST s = decide (s = []) := by
  have hfuel : 2 ≤ matchFuel sentinelAST s := by
    rw [matchFuel]
    have : 1 ≤ s.length + 2 := by omega
    calc 2 ≤ (regexSize sentinelAST + 2) * 1 := by rw [sentinelAST]; simp [regexSize]
    _ ≤ (regexSize sentinelAST + 2) * (s.length + 2) :=
        Nat.mul_le_mul_left _ (by omega)
  cases s with
  | nil => decide
  | cons c rest =>
    have hfalse : rtest sentinelAST (c :: rest) = false := by
      rw [rtest]
      rw [List.any_eq_false]
      intro i _
      rw [ends_sentinel _ _ _ hfuel]
      have : ¬(i = (c :: rest).length ∧ i = 0) := by
        rintro ⟨h1, h2⟩
        subst h2
        simp at h1
      rw [if_neg this]
      simp
    rw [hfalse]
    simp

/-- Claim C9: the matcher compiled from the empty pattern list ignores
nothing: both partitions are the sentinel, which does match the empty
string, but the accept test cancels the ignore test on every candidate. -/
theorem c9_empty_pattern_list_ignores_nothing (p : List Char) :
    ignoreOf [] p = some false ∧ rtest sentinelAST [] = true := by
  refine ⟨?_, by decide⟩
  have h : toRegex [] = some ⟨sentinelAST, sentinelAST⟩ := rfl
  rw [ignoreOf, h, Option.map_some']
  rw [ignore]
  simp [Bool.and_not_self]

/-- Helper naming the accept-side test of a compiled pair at a candidate,
used to state concrete evaluations of claims about the sentinel. -/
def acceptsTestOf (ps : List (List Char)) (p : List Char) : Option Bool :=
  (toRegex ps).map (fun r => rtest r.accepts p)

/-- Counterexample to claim C1 as stated: for the pattern list `['a']`,
which has no `!`-prefixed entry, the compiled accepts expression is the
sentinel `/$^/` and it DOES match the empty candidate string, contrary to
"matches no candidate string (not even the empty string)". -/
theorem c1_counterexample :
    acceptsTestOf ["a".toList] [] = some true := by decide

theorem partition_accepts_nil (ps : List (List Char))
    (h : ∀ q ∈ ps, q.head? ≠ some '!') :
    (partitionPatterns ps).1 = [] := by
  induction ps with
  | nil => rfl
  | cons p rest ih =>
    have hp : ¬(p.head? = some '!') := h p (List.mem_cons_self p rest)
    have hrec := ih (fun q hq => h q (List.mem_cons_of_mem p hq))
    rw [partitionPatterns]
    simp only [hp, if_false]
    exact hrec

/-- Amended claim C1: an empty partition compiles to the sentinel `/$^/`,
which matches exactly the empty string; hence when the pattern list has no
`!`-prefixed entry the accepts expression is the sentinel, and for every
candidate whose slash-stripped form is non-empty the decision of `ignore`
is exactly the ignores test. -/
theorem c1_sentinel_matches_exactly_empty (ps : List (List Char))
    (r : ParsePatternsRegex) (s p : List Char)
    (hr : toRegex ps = some r)
    (hnb : ∀ q ∈ ps, q.head? ≠ some '!')
    (hs : stripSlash p ≠ []) :
    r.accepts = sentinelAST
    ∧ rtest sentinelAST s = decide (s = [])
    ∧ ignore r p = rtest r.ignores (stripSlash p) := by
  have hacc : r.accepts = sentinelAST := by
    rw [toRegex] at hr
    rw [partition_accepts_nil ps hnb] at hr
    simp only [List.length_nil, gt_iff_lt, Nat.lt_irrefl, if_false] at hr
    cases hi : (if (partitionPatterns ps).2.length > 0
        then parseRegex (buildSrc (partitionPatterns ps).2)
        else some sentinelAST) with
    | none => rw [hi] at hr; exact absurd hr (by simp)
    | some ig =>
      rw [hi] at hr
      simp only [Option.some.injEq] at hr
      rw [← hr]
  refine ⟨hacc, rtest_sentinel s, ?_⟩
  rw [ignore, hacc, rtest_sentinel]
  have : decide (stripSlash p = []) = false := by
    simp [hs]
  rw [this]
  simp

/-- Witness for C1 at the empty pattern list and candidate `ab`. -/
theorem c1_sentinel_matches_exactly_empty_witness :
    (ParsePatternsRegex.mk sentinelAST sentinelAST).accepts = sentinelAST
    ∧ rtest sentinelAST ("x".toList) = decide (("x".toList : List Char) = [])
    ∧ ignore ⟨sentinelAST, sentinelAST⟩ ("ab".toList)
        = rtest (ParsePatternsRegex.mk sentinelAST sentinelAST).ignores
            (stripSlash ("ab".toList)) :=
  c1_sentinel_matches_exactly_empty [] ⟨sentinelAST, sentinelAST⟩
    ("x".toList) ("ab".toList) rfl (by simp) (by decide)

/-! ## Claim C2: the decision rule of `ignore` and anchoring -/

theorem matchFuel_ge_two (r : Regex) (s : List Char) : 2 ≤ matchFuel r s := by
  rw [matchFuel]
  calc 2 ≤ 2 * 2 := by omega
  _ ≤ (regexSize r + 2) * (s.length + 2) :=
      Nat.mul_le_mul (by omega) (by omega)

theorem ends_anchorSeq_ne_zero (r2 : Regex) (s : List Char) (n i : Nat)
    (hn : 2 ≤ n) (hi : i ≠ 0) :
    ends s n (.seq .startAnchor r2) i = [] := by
  obtain ⟨m, rfl⟩ : ∃ m, n = m + 2 := ⟨n - 2, by omega⟩
  rw [ends]
  have hstart : ends s (m + 1) Regex.startAnchor i
      = if i = 0 then [i] else [] := by rw [ends]
  rw [hstart, if_neg hi]
  simp

theorem rtest_anchored (r2 : Regex) (s : List Char) :
    rtest (.seq .startAnchor r2) s = matchAt0 (.seq .startAnchor r2) s := by
  cases hm : matchAt0 (.seq .startAnchor r2) s with
  | true =>
    rw [rtest, List.any_eq_true]
    refine ⟨0, ?_, hm⟩
    rw [List.mem_range]
    omega
  | false =>
    rw [rtest, List.any_eq_false]
    intro i _
    by_cases hi : i = 0
    · subst hi
      rw [matchAt0] at hm
      simp [hm]
    · rw [ends_anchorSeq_ne_zero r2 s _ i (matchFuel_ge_two _ s) hi]
      simp

/-- Pattern list of the concrete example of claim C2. -/
def c2pats : List (List Char) :=
  ["fixtures".toList, "!fixtures/node_modules".toList]

/-- Decision rule asserted by claim C2 as stated: both tests anchored only
at position 0. -/
def claimIgnoreOf (ps : List (List Char)) (p : List Char) : Option Bool :=
  (toRegex ps).map
    (fun r => matchAt0 r.ignores (stripSlash p)
      && !matchAt0 r.accepts (stripSlash p))

/-- Counterexample to claim C2 as stated: for `toRegex(['a', 'b'])` and
candidate `xb`, `ignore` returns true (the assembled source `^(a)|(b)`
anchors only the first alternative, and `(b)` matches inside `xb`), while
the anchored-at-position-0 reading of the claim yields false. -/
theorem c2_counterexample :
    ignoreOf ["a".toList, "b".toList] ("xb".toList) = some true
    ∧ claimIgnoreOf ["a".toList, "b".toList] ("xb".toList) = some false :=
  ⟨by decide, by decide⟩

/-- Amended claim C2: `ignore(r, p)` is true iff the ignores expression
matches the slash-stripped candidate at some position and the accepts
expression matches it at no position; an expression of the emitted shape
`startAnchor · rest` (the first alternative, and the whole expression for
a single-pattern partition as in the example) matches iff it matches at
position 0; and the four concrete evaluations of the example hold. -/
theorem c2_ignore_semantics (ps : List (List Char))
    (r : ParsePatternsRegex) (p : List Char) (r2 : Regex) (s : List Char)
    (hr : toRegex ps = some r) :
    ignore r p
      = (rtest r.ignores (stripSlash p) && !rtest r.accepts (stripSlash p))
    ∧ rtest (.seq .startAnchor r2) s = matchAt0 (.seq .startAnchor r2) s
    ∧ ignoreOf c2pats ("fixtures".toList) = some true
    ∧ ignoreOf c2pats ("fixtures/test.ts".toList) = some true
    ∧ ignoreOf c2pats ("fixtures/other".toList) = some true
    ∧ ignoreOf c2pats ("fixtures/node_modules".toList) = some false :=
  ⟨rfl, rtest_anchored r2 s, by decide, by decide, by decide, by decide⟩

/-- Witness for C2 at the empty pattern list. -/
theorem c2_ignore_semantics_witness :
    ignore ⟨sentinelAST, sentinelAST⟩ ("x".toList)
      = (rtest (ParsePatternsRegex.mk sentinelAST sentinelAST).ignores
            (stripSlash ("x".toList))
        && !rtest (ParsePatternsRegex.mk sentinelAST sentinelAST).accepts
            (stripSlash ("x".toList)))
    ∧ rtest (.seq .startAnchor .epsilon) ("y".toList)
        = matchAt0 (.seq .startAnchor .epsilon) ("y".toList)
    ∧ ignoreOf c2pats ("fixtures".toList) = some true
    ∧ ignoreOf c2pats ("fixtures/test.ts".toList) = some true
    ∧ ignoreOf c2pats ("fixtures/other".toList) = some true
    ∧ ignoreOf c2pats ("fixtures/node_modules".toList) = some false :=
  c2_ignore_semantics [] ⟨sentinelAST, sentinelAST⟩ ("x".toList)
    .epsilon ("y".toList) rfl

/-! ## Claim C6: prepareRegexPattern replaces only first occurrences -/

theorem splitFirst_none (s pat : List Char)
    (h : splitFirst s pat = none) : ¬ pat <:+: s := by
  induction s with
  | nil =>
    rw [splitFirst] at h
    by_cases hp : pat.isPrefixOf ([] : List Char)
    · rw [if_pos hp] at h; exact absurd h (by simp)
    · intro hinf
      have hpat : pat = [] := by
        rcases hinf with ⟨a, b, hab⟩
        have h3 : a = [] ∧ pat = [] ∧ b = [] := by simpa using hab
        exact h3.2.1
      exact hp (List.isPrefixOf_iff_prefix.mpr (by simp [hpat]))
  | cons c rest ih =>
    rw [splitFirst] at h
    by_cases hp : pat.isPrefixOf (c :: rest)
    · rw [if_pos hp] at h; exact absurd h (by simp)
    · rw [if_neg hp] at h
      intro hinf
      rcases List.infix_cons_iff.mp hinf with hpre | hinf2
      · exact hp (List.isPrefixOf_iff_prefix.mpr hpre)
      · cases hs : splitFirst rest pat with
        | none => exact ih hs hinf2
        | some ab => rw [hs] at h; simp at h

theorem splitFirst_some (s pat a b : List Char)
    (h : splitFirst s pat = some (a, b)) :
    s = a ++ pat ++ b
    ∧ ∀ a2 b2, s = a2 ++ pat ++ b2 → a.length ≤ a2.length := by
  induction s generalizing a with
  | nil =>
    rw [splitFirst] at h
    by_cases hp : pat.isPrefixOf ([] : List Char)
    · rw [if_pos hp] at h
      simp only [Option.some.injEq, Prod.mk.injEq] at h
      obtain ⟨ha, hb⟩ := h
      have hpat : pat = [] :=
        List.eq_nil_of_prefix_nil (List.isPrefixOf_iff_prefix.mp hp)
      subst ha
      subst hpat
      refine ⟨by simp [← hb], ?_⟩
      intro a2 b2 _
      simp
    · rw [if_neg hp] at h; exact absurd h (by simp)
  | cons c rest ih =>
    rw [splitFirst] at h
    by_cases hp : pat.isPrefixOf (c :: rest)
    · rw [if_pos hp] at h
      simp only [Option.some.injEq, Prod.mk.injEq] at h
      obtain ⟨ha, hb⟩ := h
      subst ha
      rcases List.isPrefixOf_iff_prefix.mp hp with ⟨t, ht⟩
      have hb2 : b = t := by
        rw [← hb, ← ht, List.drop_left]
      refine ⟨?_, ?_⟩
      · rw [hb2, ← ht]; rfl
      · intro a2 b2 _; simp
    · rw [if_neg hp] at h
      cases hs : splitFirst rest pat with
      | none => rw [hs] at h; exact absurd h (by simp)
      | some ab =>
        rw [hs] at h
        simp only [Option.map_some', Option.some.injEq] at h
        obtain ⟨a1, b1⟩ := ab
        have ha : a = c :: a1 := by
          have := congrArg Prod.fst h
          simpa using this.symm
        have hb : b = b1 := by
          have := congrArg Prod.snd h
          simpa using this.symm
        subst ha
        subst hb
        have hrec := ih a1 hs
        refine ⟨?_, ?_⟩
        · simp only [List.cons_append]
          rw [← hrec.1]
        · intro a2 b2 hab
          cases a2 with
          | nil =>
            exfalso
            apply hp
            rw [List.isPrefixOf_iff_prefix]
            exact ⟨b2, by simpa using hab.symm⟩
          | cons c2 a2t =>
            simp only [List.cons_append, List.cons.injEq] at hab
            have := hrec.2 a2t b2 hab.2
            simp only [List.length_cons]
            omega

/-- Characterisation of one first-occurrence replacement step: either the
search text does not occur and the string is unchanged, or the string
splits around the leftmost occurrence and exactly that occurrence is
rewritten, the remainder (including any later occurrences) untouched. -/
def replaceSpec (s pat rep : List Char) : Prop :=
  (¬ pat <:+: s ∧ replaceFirst s pat rep = s)
  ∨ ∃ a b, s = a ++ pat ++ b ∧ replaceFirst s pat rep = a ++ rep ++ b
      ∧ ∀ a2 b2, s = a2 ++ pat ++ b2 → a.length ≤ a2.length

theorem replaceSpec_holds (s pat rep : List Char) : replaceSpec s pat rep := by
  rw [replaceSpec]
  cases hs : splitFirst s pat with
  | none =>
    left
    refine ⟨splitFirst_none s pat hs, ?_⟩
    rw [replaceFirst, hs]
  | some ab =>
    right
    obtain ⟨a, b⟩ := ab
    have := splitFirst_some s pat a b hs
    exact ⟨a, b, this.1, by rw [replaceFirst, hs], this.2⟩

/-- Claim C6: `prepareRegexPattern` escapes exactly the listed regex
metacharacters (each gaining one preceding backslash, `*` not among
them), then rewrites only the first occurrence of `**` to the
any-characters token and afterwards only the first occurrence of `*` to
the any-characters-except-slash token, leaving all later occurrences
untransformed. -/
theorem c6_first_occurrence_only (p : List Char) :
    prepareRegexPattern p
      = replaceFirst
          (replaceFirst (escapeRegexChars p) ("**".toList) anyToken)
          ("*".toList) notSlashToken
    ∧ escapeRegexChars p
        = p.flatMap (fun c => if c ∈ regexMetaChars then ['\\', c] else [c])
    ∧ replaceSpec (escapeRegexChars p) ("**".toList) anyToken
    ∧ replaceSpec (replaceFirst (escapeRegexChars p) ("**".toList) anyToken)
        ("*".toList) notSlashToken := by
  refine ⟨rfl, ?_, replaceSpec_holds _ _ _, replaceSpec_holds _ _ _⟩
  rw [escapeRegexChars]
  refine congrArg p.flatMap ?_
  funext c
  rw [escTok]
  by_cases hc : c ∈ regexMetaChars
  · rw [if_pos hc, if_pos ((List.elem_iff).mpr hc)]
  · rw [if_neg hc, if_neg (fun h => hc ((List.elem_iff).mp h))]

/-! ## Claim C10: totality of `toRegex` -/

theorem parseClassBody_cons (n : Nat) (c : Char) (rest : List Char) :
    parseClassBody (n + 1) (c :: rest)
      = if c = ']' then some ([], rest)
        else if c = '\\' then
          match rest with
          | [] => none
          | d :: rest2 =>
            match parseClassBody n rest2 with
            | none => none
            | some (ms, rest3) => some (d :: ms, rest3)
        else
          match parseClassBody n rest with
          | none => none
          | some (ms, rest2) => some (c :: ms, rest2) := by
  rw [parseClassBody.eq_def]

theorem parser_mono_step (n : Nat) :
    (∀ cs v, parseAlts n cs = some v → parseAlts (n + 1) cs = some v)
    ∧ (∀ cs v, parseSeq n cs = some v → parseSeq (n + 1) cs = some v)
    ∧ (∀ cs v, parseTerm n cs = some v → parseTerm (n + 1) cs = some v)
    ∧ (∀ cs v, parseClassBody n cs = some v
        → parseClassBody (n + 1) cs = some v) := by
  induction n with
  | zero =>
    refine ⟨?_, ?_, ?_, ?_⟩ <;> intro cs v h <;>
      simp [parseAlts, parseSeq, parseTerm, parseClassBody] at h
  | succ n ih =>
    obtain ⟨ihA, ihS, ihT, ihC⟩ := ih
    refine ⟨?_, ?_, ?_, ?_⟩
    · intro cs v h
      rw [parseAlts] at h ⊢
      cases hs : parseSeq n cs with
      | none => rw [hs] at h; exact absurd h (by simp)
      | some rv =>
        obtain ⟨r, rest⟩ := rv
        rw [hs] at h
        rw [ihS cs (r, rest) hs]
        have h2 : (if rest.head? = some '|' then
            match parseAlts n rest.tail with
            | none => none
            | some (r2, rest3) => some (Regex.alt r r2, rest3)
          else some (r, rest)) = some v := h
        by_cases hbar : rest.head? = some '|'
        · rw [if_pos hbar] at h2
          show (if rest.head? = some '|' then
              match parseAlts (n + 1) rest.tail with
              | none => none
              | some (r2, rest3) => some (Regex.alt r r2, rest3)
            else some (r, rest)) = some v
          rw [if_pos hbar]
          cases ha : parseAlts n rest.tail with
          | none => rw [ha] at h2; exact absurd h2 (by simp)
          | some rv2 =>
            rw [ha] at h2
            rw [ihA rest.tail rv2 ha]
            exact h2
        · rw [if_neg hbar] at h2
          show (if rest.head? = some '|' then
              match parseAlts (n + 1) rest.tail with
              | none => none
              | some (r2, rest3) => some (Regex.alt r r2, rest3)
            else some (r, rest)) = some v
          rw [if_neg hbar]
          exact h2
    · intro cs v h
      rw [parseSeq] at h ⊢
      by_cases hstop : isStop cs
      · rw [if_pos hstop] at h ⊢; exact h
      · rw [if_neg hstop] at h ⊢
        cases ht : parseTerm n cs with
        | none => rw [ht] at h; exact absurd h (by simp)
        | some tv =>
          obtain ⟨t, rest⟩ := tv
          rw [ht] at h
          rw [ihT cs (t, rest) ht]
          have h2 : (match parseSeq n rest with
            | none => none
            | some (r, rest2) => some (Regex.seq t r, rest2)) = some v := h
          show (match parseSeq (n + 1) rest with
            | none => none
            | some (r, rest2) => some (Regex.seq t r, rest2)) = some v
          cases hsq : parseSeq n rest with
          | none => rw [hsq] at h2; exact absurd h2 (by simp)
          | some sv =>
            rw [hsq] at h2
            rw [ihS rest sv hsq]
            exact h2
    · intro cs v h
      cases cs with
      | nil =>
        rw [parseTerm.eq_def] at h
        exact absurd h (by simp)
      | cons c rest =>
        simp only [parseTerm.eq_def] at h ⊢
        by_cases h1 : c = '^'
        · rw [if_pos h1] at h ⊢; exact h
        · rw [if_neg h1] at h ⊢
          by_cases h2 : c = '$'
          · rw [if_pos h2] at h ⊢; exact h
          · rw [if_neg h2] at h ⊢
            by_cases h3 : c = '\\'
            · rw [if_pos h3] at h ⊢
              cases rest with
              | nil => exact absurd h (by simp)
              | cons d rest2 => exact h
            · rw [if_neg h3] at h ⊢
              by_cases h4 : c = '('
              · rw [if_pos h4] at h ⊢
                cases ha : parseAlts n rest with
                | none => rw [ha] at h; exact absurd h (by simp)
                | some rv =>
                  obtain ⟨r, rest2⟩ := rv
                  rw [ha] at h
                  rw [ihA rest (r, rest2) ha]
                  exact h
              · rw [if_neg h4] at h ⊢
                by_cases h5 : c = '['
                · rw [if_pos h5] at h ⊢
                  by_cases h6 : rest.head? = some '^'
                  · rw [if_pos h6] at h ⊢
                    cases hc : parseClassBody n rest.tail with
                    | none => rw [hc] at h; exact absurd h (by simp)
                    | some cv =>
                      obtain ⟨ms, rest2⟩ := cv
                      rw [hc] at h
                      rw [ihC rest.tail (ms, rest2) hc]
                      exact h
                  · rw [if_neg h6] at h ⊢
                    cases hc : parseClassBody n rest with
                    | none => rw [hc] at h; exact absurd h (by simp)
                    | some cv =>
                      obtain ⟨ms, rest2⟩ := cv
                      rw [hc] at h
                      rw [ihC rest (ms, rest2) hc]
                      exact h
                · rw [if_neg h5] at h ⊢
                  by_cases h7 : c = '.'
                  · rw [if_pos h7] at h ⊢; exact h
                  · rw [if_neg h7] at h ⊢
                    by_cases h8 : isTermStop c
                    · rw [if_pos h8] at h; exact absurd h (by simp)
                    · rw [if_neg h8] at h ⊢; exact h
    · intro cs v h
      cases cs with
      | nil =>
        rw [parseClassBody.eq_def] at h
        exact absurd h (by simp)
      | cons c rest =>
        rw [parseClassBody_cons] at h ⊢
        by_cases h1 : c = ']'
        · rw [if_pos h1] at h ⊢; exact h
        · rw [if_neg h1] at h ⊢
          by_cases h2 : c = '\\'
          · rw [if_pos h2] at h ⊢
            cases rest with
            | nil => exact absurd h (by simp)
            | cons d rest2 =>
              have hm : (match parseClassBody n rest2 with
                | none => none
                | some (ms, rest3) => some (d :: ms, rest3)) = some v := h
              show (match parseClassBody (n + 1) rest2 with
                | none => none
                | some (ms, rest3) => some (d :: ms, rest3)) = some v
              cases hc : parseClassBody n rest2 with
              | none => rw [hc] at hm; exact absurd hm (by simp)
              | some cv =>
                obtain ⟨ms, rest3⟩ := cv
                rw [hc] at hm
                rw [ihC rest2 (ms, rest3) hc]
                exact hm
          · rw [if_neg h2] at h ⊢
            cases hc : parseClassBody n rest with
            | none => rw [hc] at h; exact absurd h (by simp)
            | some cv =>
              obtain ⟨ms, rest2⟩ := cv
              rw [hc] at h
              rw [ihC rest (ms, rest2) hc]
              exact h

theorem parseSeq_mono (n m : Nat) (hle : n ≤ m) (cs : List Char)
    (v : Regex × List Char) (h : parseSeq n cs = some v) :
    parseSeq m cs = some v := by
  induction m with
  | zero =>
    have : n = 0 := by omega
    subst this
    exact h
  | succ m ih =>
    rcases Nat.lt_or_ge n (m + 1) with hlt | hge
    · exact (parser_mono_step m).2.1 cs v (ih (by omega))
    · have : n = m + 1 := by omega
      subst this
      exact h

theorem parseAlts_mono (n m : Nat) (hle : n ≤ m) (cs : List Char)
    (v : Regex × List Char) (h : parseAlts n cs = some v) :
    parseAlts m cs = some v := by
  induction m with
  | zero =>
    have : n = 0 := by omega
    subst this
    exact h
  | succ m ih =>
    rcases Nat.lt_or_ge n (m + 1) with hlt | hge
    · exact (parser_mono_step m).1 cs v (ih (by omega))
    · have : n = m + 1 := by omega
      subst this
      exact h

theorem parseTerm_mono (n m : Nat) (hle : n ≤ m) (cs : List Char)
    (v : Regex × List Char) (h : parseTerm n cs = some v) :
    parseTerm m cs = some v := by
  induction m with
  | zero =>
    have : n = 0 := by omega
    subst this
    exact h
  | succ m ih =>
    rcases Nat.lt_or_ge n (m + 1) with hlt | hge
    · exact (parser_mono_step m).2.2.1 cs v (ih (by omega))
    · have : n = m + 1 := by omega
      subst this
      exact h

/-- Absence of a quantifier character at the head of the remaining input,
so `applyQuant` leaves an atom unquantified. -/
def noQuantHead (rest : List Char) : Prop :=
  rest.head? ≠ some '*' ∧ rest.head? ≠ some '+'

/-- The remaining input begins where an alternative may end. -/
def stopHead (rest : List Char) : Prop :=
  rest = [] ∨ rest.head? = some '|' ∨ rest.head? = some ')'

theorem applyQuant_noQuant (r : Regex) (rest : List Char)
    (hq : noQuantHead rest) : applyQuant r rest = (r, rest) := by
  obtain ⟨h1, h2⟩ := hq
  cases rest with
  | nil => rfl
  | cons c rest2 =>
    rw [applyQuant]
    simp only [List.head?_cons, ne_eq, Option.some.injEq] at h1 h2
    rw [if_neg h1, if_neg h2]

theorem parseTerm_cons (n : Nat) (c : Char) (rest : List Char) :
    parseTerm (n + 1) (c :: rest)
      = if c = '^' then some (.startAnchor, rest)
        else if c = '$' then some (.endAnchor, rest)
        else if c = '\\' then
          match rest with
          | [] => none
          | d :: rest2 => some (applyQuant (.lit d) rest2)
        else if c = '(' then
          match parseAlts n rest with
          | none => none
          | some (r, rest2) =>
            if rest2.head? = some ')' then
              some (applyQuant (.group r) rest2.tail)
            else none
        else if c = '[' then
          if rest.head? = some '^' then
            match parseClassBody n rest.tail with
            | none => none
            | some (ms, rest2) => some (applyQuant (.cls true ms) rest2)
          else
            match parseClassBody n rest with
            | none => none
            | some (ms, rest2) => some (applyQuant (.cls false ms) rest2)
        else if c = '.' then some (applyQuant .dot rest)
        else if isTermStop c then none
        else some (applyQuant (.lit c) rest) := by
  rw [parseTerm.eq_def]

theorem stopHead_isStop (rest : List Char) (h : stopHead rest) :
    isStop rest = true := by
  rcases h with h | h | h
  · subst h; rfl
  · cases rest with
    | nil => simp at h
    | cons c rest2 =>
      simp only [List.head?_cons, Option.some.injEq] at h
      subst h
      rw [isStop]
      simp
  · cases rest with
    | nil => simp at h
    | cons c rest2 =>
      simp only [List.head?_cons, Option.some.injEq] at h
      subst h
      rw [isStop]
      simp

theorem stopHead_noQuant (rest : List Char) (h : stopHead rest) :
    noQuantHead rest := by
  rcases h with h | h | h
  · subst h; exact ⟨by simp, by simp⟩
  · exact ⟨by rw [h]; simp, by rw [h]; simp⟩
  · exact ⟨by rw [h]; simp, by rw [h]; simp⟩

theorem parseTerm_escTok (n : Nat) (c : Char) (rest : List Char)
    (hstar : c ≠ '*') (hq : noQuantHead rest) :
    parseTerm (n + 1) (escTok c ++ rest) = some (.lit c, rest) := by
  rw [escTok]
  by_cases hmeta : regexMetaChars.contains c = true
  · rw [if_pos hmeta]
    show parseTerm (n + 1) ('\\' :: c :: rest) = some (.lit c, rest)
    rw [parseTerm_cons]
    rw [if_neg (by decide), if_neg (by decide), if_pos rfl]
    show some (applyQuant (.lit c) rest) = some (.lit c, rest)
    rw [applyQuant_noQuant _ _ hq]
  · rw [if_neg hmeta]
    show parseTerm (n + 1) (c :: rest) = some (.lit c, rest)
    have h1 : c ≠ '^' := by rintro rfl; exact hmeta (by decide)
    have h2 : c ≠ '$' := by rintro rfl; exact hmeta (by decide)
    have h3 : c ≠ '\\' := by rintro rfl; exact hmeta (by decide)
    have h4 : c ≠ '(' := by rintro rfl; exact hmeta (by decide)
    have h5 : c ≠ '[' := by rintro rfl; exact hmeta (by decide)
    have h7 : c ≠ '.' := by rintro rfl; exact hmeta (by decide)
    have h8 : ¬(isTermStop c = true) := by
      rw [isTermStop]
      simp only [Bool.or_eq_true, decide_eq_true_eq, not_or]
      refine ⟨hstar, ?_, ?_, ?_, ?_⟩
      · rintro rfl; exact hmeta (by decide)
      · rintro rfl; exact hmeta (by decide)
      · rintro rfl; exact hmeta (by decide)
      · rintro rfl; exact hmeta (by decide)
    rw [parseTerm_cons, if_neg h1, if_neg h2, if_neg h3, if_neg h4,
      if_neg h5, if_neg h7, if_neg h8]
    rw [applyQuant_noQuant _ _ hq]

theorem isStop_escTok_append (c : Char) (R : List Char) (hstar : c ≠ '*') :
    isStop (escTok c ++ R) = false := by
  rw [escTok]
  by_cases hmeta : regexMetaChars.contains c = true
  · rw [if_pos hmeta]
    rfl
  · rw [if_neg hmeta]
    show isStop (c :: R) = false
    rw [isStop]
    simp only [decide_eq_false_iff_not]
    intro hor
    rcases hor with rfl | rfl
    · exact hmeta (by decide)
    · exact hmeta (by decide)

theorem noQuantHead_escAppend (p : List Char) (rest : List Char)
    (hstar : '*' ∉ p) (hrest : stopHead rest) :
    noQuantHead (escapeRegexChars p ++ rest) := by
  cases p with
  | nil =>
    rw [escapeRegexChars]
    simp only [List.flatMap_nil, List.nil_append]
    exact stopHead_noQuant rest hrest
  | cons d p2 =>
    rw [escapeRegexChars, List.flatMap_cons, escTok]
    by_cases hmeta : regexMetaChars.contains d = true
    · rw [if_pos hmeta]
      exact ⟨by simp, by simp⟩
    · rw [if_neg hmeta]
      have hd : d ≠ '*' := fun h => hstar (h ▸ List.mem_cons_self d p2)
      have hplus : d ≠ '+' := by rintro rfl; exact hmeta (by decide)
      refine ⟨?_, ?_⟩
      · show ((d :: (p2.flatMap escTok ++ rest)).head? ≠ some '*')
        simp [hd]
      · show ((d :: (p2.flatMap escTok ++ rest)).head? ≠ some '+')
        simp [hplus]

theorem parseSeq_lits (p : List Char) (rest : List Char)
    (hstar : '*' ∉ p) (hrest : stopHead rest) :
    ∃ r, parseSeq (p.length + 1) (escapeRegexChars p ++ rest)
      = some (r, rest) := by
  induction p with
  | nil =>
    refine ⟨.epsilon, ?_⟩
    rw [escapeRegexChars]
    simp only [List.flatMap_nil, List.nil_append]
    rw [parseSeq, if_pos (stopHead_isStop rest hrest)]
  | cons c p2 ih =>
    have hc : c ≠ '*' := fun h => hstar (h ▸ List.mem_cons_self c p2)
    have hstar2 : '*' ∉ p2 := fun h => hstar (List.mem_cons_of_mem c h)
    obtain ⟨r2, hr2⟩ := ih hstar2
    rw [escapeRegexChars, List.flatMap_cons, List.append_assoc]
    have hR : p2.flatMap escTok ++ rest = escapeRegexChars p2 ++ rest := rfl
    rw [hR]
    rw [show (c :: p2).length + 1 = (p2.length + 1) + 1 from by
      simp only [List.length_cons]]
    rw [parseSeq]
    rw [if_neg (by
      rw [isStop_escTok_append c _ hc]
      simp)]
    rw [parseTerm_escTok (p2.length) c _ hc
      (noQuantHead_escAppend p2 rest hstar2 hrest)]
    refine ⟨.seq (.lit c) r2, ?_⟩
    show (match parseSeq (p2.length + 1) (escapeRegexChars p2 ++ rest) with
      | none => none
      | some (r, rest2) => some (Regex.seq (.lit c) r, rest2))
        = some (Regex.seq (.lit c) r2, rest)
    rw [hr2]

theorem parseGroup (n : Nat) (p rest : List Char) (hstar : '*' ∉ p)
    (hq : noQuantHead rest) (hfuel : p.length + 3 ≤ n) :
    ∃ r, parseTerm n ('(' :: (escapeRegexChars p ++ (')' :: rest)))
      = some (.group r, rest) := by
  obtain ⟨k, rfl⟩ : ∃ k, n = k + 1 + 1 := ⟨n - 2, by omega⟩
  obtain ⟨rs, hrs⟩ := parseSeq_lits p (')' :: rest) hstar
    (Or.inr (Or.inr (by simp)))
  have hseq : parseSeq k (escapeRegexChars p ++ (')' :: rest))
      = some (rs, ')' :: rest) :=
    parseSeq_mono (p.length + 1) k (by omega) _ _ hrs
  have halts : parseAlts (k + 1) (escapeRegexChars p ++ (')' :: rest))
      = some (rs, ')' :: rest) := by
    rw [parseAlts, hseq]
    show (if (')' :: rest).head? = some '|' then _ else _) = _
    rw [if_neg (by simp)]
  rw [parseTerm_cons]
  rw [if_neg (by decide), if_neg (by decide), if_neg (by decide), if_pos rfl]
  refine ⟨rs, ?_⟩
  show (match parseAlts (k + 1) (escapeRegexChars p ++ (')' :: rest)) with
    | none => none
    | some (r, rest2) =>
      if rest2.head? = some ')' then some (applyQuant (.group r) rest2.tail)
      else none) = some (.group rs, rest)
  rw [halts]
  show (if (')' :: rest).head? = some ')' then
      some (applyQuant (.group rs) (')' :: rest).tail)
    else none) = some (.group rs, rest)
  rw [if_pos (by simp)]
  show some (applyQuant (.group rs) rest) = some (.group rs, rest)
  rw [applyQuant_noQuant _ _ hq]

theorem parseWrap (n : Nat) (p tail : List Char) (hstar : '*' ∉ p)
    (htail : stopHead tail) (hfuel : p.length + 6 ≤ n) :
    ∃ r, parseSeq n ('(' :: (escapeRegexChars p ++ (')' :: tail)))
      = some (r, tail) := by
  obtain ⟨k, rfl⟩ : ∃ k, n = k + 2 := ⟨n - 2, by omega⟩
  rw [parseSeq]
  rw [if_neg (by rw [isStop]; simp)]
  obtain ⟨r, hterm⟩ := parseGroup (k + 1) p tail hstar
    (stopHead_noQuant tail htail) (by omega)
  rw [hterm]
  have hstopseq : parseSeq (k + 1) tail = some (.epsilon, tail) := by
    obtain ⟨k2, rfl⟩ : ∃ k2, k = k2 + 1 := ⟨k - 1, by omega⟩
    rw [parseSeq, if_pos (stopHead_isStop tail htail)]
  refine ⟨.seq (.group r) .epsilon, ?_⟩
  show (match parseSeq (k + 1) tail with
    | none => none
    | some (r2, rest2) => some (Regex.seq (.group r) r2, rest2))
      = some (.seq (.group r) .epsilon, tail)
  rw [hstopseq]

/-- The alternatives part of the assembled source: each pattern's escaped
text in its own group, separated by bars. -/
def altsSrc : List (List Char) → List Char
  | [] => []
  | [p] => '(' :: (escapeRegexChars p ++ [')'])
  | p :: rest => '(' :: (escapeRegexChars p ++ (')' :: '|' :: altsSrc rest))

/-- Fuel sufficient to parse the alternatives of the given patterns. -/
def fuelNeed : List (List Char) → Nat
  | [] => 1
  | p :: rest => p.length + 7 + fuelNeed rest

theorem parseAlts_altsSrc (ps : List (List Char)) (hne : ps ≠ [])
    (hstar : ∀ p ∈ ps, '*' ∉ p) (n : Nat) (hfuel : fuelNeed ps ≤ n) :
    ∃ r, parseAlts n (altsSrc ps) = some (r, []) := by
  induction ps generalizing n with
  | nil => exact absurd rfl hne
  | cons p ps2 ih =>
    have hp : '*' ∉ p := hstar p (List.mem_cons_self p ps2)
    rw [fuelNeed] at hfuel
    obtain ⟨k, rfl⟩ : ∃ k, n = k + 1 := ⟨n - 1, by omega⟩
    cases ps2 with
    | nil =>
      rw [show altsSrc [p] = '(' :: (escapeRegexChars p ++ (')' :: []))
        from rfl]
      obtain ⟨r, hseq⟩ := parseWrap k p [] hp (Or.inl rfl) (by omega)
      rw [parseAlts, hseq]
      refine ⟨r, ?_⟩
      show (if ([] : List Char).head? = some '|' then _ else _)
        = some (r, [])
      rw [if_neg (by simp)]
    | cons q ps3 =>
      rw [show altsSrc (p :: q :: ps3)
        = '(' :: (escapeRegexChars p ++ (')' :: '|' :: altsSrc (q :: ps3)))
        from rfl]
      obtain ⟨r, hseq⟩ := parseWrap k p ('|' :: altsSrc (q :: ps3)) hp
        (Or.inr (Or.inl (by simp))) (by omega)
      rw [parseAlts, hseq]
      have hrec := ih (by simp)
        (fun x hx => hstar x (List.mem_cons_of_mem p hx)) k
        (by rw [fuelNeed] at hfuel ⊢; omega)
      obtain ⟨r2, hrec2⟩ := hrec
      refine ⟨.alt r r2, ?_⟩
      show (if ('|' :: altsSrc (q :: ps3)).head? = some '|' then
          match parseAlts k ('|' :: altsSrc (q :: ps3)).tail with
          | none => none
          | some (r2, rest3) => some (Regex.alt r r2, rest3)
        else some (r, '|' :: altsSrc (q :: ps3))) = some (.alt r r2, [])
      rw [if_pos (by simp)]
      show (match parseAlts k (altsSrc (q :: ps3)) with
        | none => none
        | some (r2, rest3) => some (Regex.alt r r2, rest3))
          = some (.alt r r2, [])
      rw [hrec2]

theorem parseAlts_anchor (ps : List (List Char)) (hne : ps ≠ [])
    (hstar : ∀ p ∈ ps, '*' ∉ p) (n : Nat)
    (hfuel : fuelNeed ps + 3 ≤ n) :
    ∃ r, parseAlts n ('^' :: altsSrc ps) = some (r, []) := by
  cases ps with
  | nil => exact absurd rfl hne
  | cons p ps2 =>
    have hp : '*' ∉ p := hstar p (List.mem_cons_self p ps2)
    rw [fuelNeed] at hfuel
    obtain ⟨k, rfl⟩ : ∃ k, n = k + 3 := ⟨n - 3, by omega⟩
    obtain ⟨T, hT, hTstop, hTcase⟩ :
        ∃ T, altsSrc (p :: ps2) = '(' :: (escapeRegexChars p ++ (')' :: T))
          ∧ stopHead T
          ∧ (T = [] ∨ (∃ q ps3, ps2 = q :: ps3 ∧ T = '|' :: altsSrc ps2)) := by
      cases ps2 with
      | nil => exact ⟨[], rfl, Or.inl rfl, Or.inl rfl⟩
      | cons q ps3 =>
        exact ⟨'|' :: altsSrc (q :: ps3), rfl, Or.inr (Or.inl (by simp)),
          Or.inr ⟨q, ps3, rfl, rfl⟩⟩
    rw [hT]
    obtain ⟨r1, hwrap⟩ := parseWrap (k + 1) p T hp hTstop (by omega)
    have hterm : parseTerm (k + 1)
        ('^' :: ('(' :: (escapeRegexChars p ++ (')' :: T))))
        = some (.startAnchor, '(' :: (escapeRegexChars p ++ (')' :: T))) := by
      rw [parseTerm_cons, if_pos rfl]
    have hseq : parseSeq (k + 2)
        ('^' :: ('(' :: (escapeRegexChars p ++ (')' :: T))))
        = some (.seq .startAnchor r1, T) := by
      rw [parseSeq]
      rw [if_neg (by rw [isStop]; simp)]
      rw [hterm]
      show (match parseSeq (k + 1)
          ('(' :: (escapeRegexChars p ++ (')' :: T))) with
        | none => none
        | some (r, rest2) => some (Regex.seq .startAnchor r, rest2))
          = some (.seq .startAnchor r1, T)
      rw [hwrap]
    rw [parseAlts, hseq]
    rcases hTcase with rfl | ⟨q, ps3, hps2, hTeq⟩
    · refine ⟨.seq .startAnchor r1, ?_⟩
      show (if ([] : List Char).head? = some '|' then
          match parseAlts (k + 2) ([] : List Char).tail with
          | none => none
          | some (r2, rest3) =>
            some (Regex.alt (Regex.seq .startAnchor r1) r2, rest3)
        else some (Regex.seq .startAnchor r1, []))
          = some (.seq .startAnchor r1, [])
      rw [if_neg (by simp)]
    · subst hps2
      obtain ⟨r2, hrec⟩ := parseAlts_altsSrc (q :: ps3) (by simp)
        (fun x hx => hstar x (List.mem_cons_of_mem p hx)) (k + 2)
        (by omega)
      subst hTeq
      refine ⟨.alt (.seq .startAnchor r1) r2, ?_⟩
      show (if ('|' :: altsSrc (q :: ps3)).head? = some '|' then
          match parseAlts (k + 2) ('|' :: altsSrc (q :: ps3)).tail with
          | none => none
          | some (rx, rest3) =>
            some (Regex.alt (Regex.seq .startAnchor r1) rx, rest3)
        else some (Regex.seq .startAnchor r1, '|' :: altsSrc (q :: ps3)))
          = some (.alt (.seq .startAnchor r1) r2, [])
      rw [if_pos (by simp)]
      show (match parseAlts (k + 2) (altsSrc (q :: ps3)) with
        | none => none
        | some (rx, rest3) =>
          some (Regex.alt (Regex.seq .startAnchor r1) rx, rest3))
          = some (.alt (.seq .startAnchor r1) r2, [])
      rw [hrec]

theorem star_not_in_esc (p : List Char) (h : '*' ∉ p) :
    '*' ∉ escapeRegexChars p := by
  intro hmem
  rw [escapeRegexChars] at hmem
  rcases List.mem_flatMap.mp hmem with ⟨c, hc, hin⟩
  rw [escTok] at hin
  split at hin
  · rcases List.mem_cons.mp hin with h1 | h1
    · exact absurd h1.symm (by decide)
    · rcases List.mem_cons.mp h1 with h2 | h2
      · exact h (h2 ▸ hc)
      · simp at h2
  · rcases List.mem_cons.mp hin with h1 | h1
    · exact h (h1 ▸ hc)
    · simp at h1

theorem replaceFirst_no_star (e pat rep : List Char) (hpat : '*' ∈ pat)
    (he : '*' ∉ e) : replaceFirst e pat rep = e := by
  rw [replaceFirst]
  cases hs : splitFirst e pat with
  | none => rfl
  | some ab =>
    exfalso
    obtain ⟨a, b⟩ := ab
    have := (splitFirst_some e pat a b hs).1
    exact he (this ▸ (by
      simp only [List.mem_append]
      exact Or.inl (Or.inr hpat)))

theorem prepare_starfree (p : List Char) (h : '*' ∉ p) :
    prepareRegexPattern p = escapeRegexChars p := by
  rw [prepareRegexPattern]
  rw [replaceFirst_no_star _ _ _ (by decide) (star_not_in_esc p h)]
  rw [replaceFirst_no_star _ _ _ (by decide) (star_not_in_esc p h)]

theorem joinSep_cons2 (x y : List Char) (ys : List (List Char)) :
    joinSep (x :: y :: ys) = x ++ ")|(".toList ++ joinSep (y :: ys) := by
  rw [joinSep]
  simp

theorem wrapJoin (ps : List (List Char)) (hne : ps ≠ [])
    (hstar : ∀ p ∈ ps, '*' ∉ p) :
    '(' :: (joinSep (ps.map prepareRegexPattern) ++ [')']) = altsSrc ps := by
  induction ps with
  | nil => exact absurd rfl hne
  | cons p ps2 ih =>
    have hp := prepare_starfree p (hstar p (List.mem_cons_self p ps2))
    cases ps2 with
    | nil =>
      rw [show altsSrc [p] = '(' :: (escapeRegexChars p ++ [')']) from rfl]
      rw [show ([p].map prepareRegexPattern) = [prepareRegexPattern p]
        from rfl]
      rw [show joinSep [prepareRegexPattern p] = prepareRegexPattern p
        from rfl]
      rw [hp]
    | cons q ps3 =>
      have ih2 := ih (by simp)
        (fun x hx => hstar x (List.mem_cons_of_mem p hx))
      rw [show ((p :: q :: ps3).map prepareRegexPattern)
        = prepareRegexPattern p :: prepareRegexPattern q
          :: (ps3.map prepareRegexPattern) from rfl]
      rw [joinSep_cons2]
      rw [show (prepareRegexPattern q :: (ps3.map prepareRegexPattern))
        = ((q :: ps3).map prepareRegexPattern) from rfl]
      rw [show altsSrc (p :: q :: ps3)
        = '(' :: (escapeRegexChars p ++ (')' :: '|' :: altsSrc (q :: ps3)))
        from rfl]
      rw [← ih2, hp]
      simp

theorem buildSrc_anchor (ps : List (List Char)) (hne : ps ≠ [])
    (hstar : ∀ p ∈ ps, '*' ∉ p) :
    buildSrc ps = '^' :: altsSrc ps := by
  rw [buildSrc, ← wrapJoin ps hne hstar]
  simp

theorem esc_len (p : List Char) :
    p.length ≤ (escapeRegexChars p).length := by
  induction p with
  | nil => simp [escapeRegexChars]
  | cons c p2 ih =>
    rw [escapeRegexChars, List.flatMap_cons]
    rw [List.length_append, List.length_cons]
    have h1 : 1 ≤ (escTok c).length := by
      rw [escTok]
      split
      · simp
      · simp
    have h2 : (p2.flatMap escTok).length = (escapeRegexChars p2).length := rfl
    omega

theorem fuelNeed_le (ps : List (List Char)) (hne : ps ≠ []) :
    fuelNeed ps ≤ 3 * (altsSrc ps).length + 2 := by
  induction ps with
  | nil => exact absurd rfl hne
  | cons p ps2 ih =>
    cases ps2 with
    | nil =>
      rw [fuelNeed, fuelNeed]
      rw [show altsSrc [p] = '(' :: (escapeRegexChars p ++ [')']) from rfl]
      have := esc_len p
      simp only [List.length_cons, List.length_append,
        List.length_singleton]
      omega
    | cons q ps3 =>
      have ih2 := ih (by simp)
      rw [fuelNeed]
      rw [show altsSrc (p :: q :: ps3)
        = '(' :: (escapeRegexChars p ++ (')' :: '|' :: altsSrc (q :: ps3)))
        from rfl]
      have := esc_len p
      simp only [List.length_cons, List.length_append] at ih2 ⊢
      omega

theorem parseRegex_some (qs : List (List Char)) (hne : qs ≠ [])
    (hstar : ∀ p ∈ qs, '*' ∉ p) :
    ∃ r, parseRegex (buildSrc qs) = some r := by
  rw [parseRegex, buildSrc_anchor qs hne hstar]
  obtain ⟨r, hr⟩ := parseAlts_anchor qs hne hstar
    (3 * ('^' :: altsSrc qs).length + 3)
    (by
      have h1 := fuelNeed_le qs hne
      simp only [List.length_cons]
      omega)
  rw [hr]
  exact ⟨r, rfl⟩

theorem partition_sub (ps : List (List Char)) (q : List Char)
    (hq : q ∈ (partitionPatterns ps).1 ∨ q ∈ (partitionPatterns ps).2) :
    ∃ p ∈ ps, q.Sublist p := by
  induction ps with
  | nil => simp [partitionPatterns] at hq
  | cons p rest ih =>
    rw [partitionPatterns] at hq
    by_cases h1 : p.head? = some '!'
    · have hsub : (if p.tail.head? = some '/' then p.tail.tail
          else p.tail).Sublist p := by
        split
        · exact (List.tail_sublist _).trans (List.tail_sublist p)
        · exact List.tail_sublist p
      simp only [h1, if_true] at hq
      rcases hq with hq | hq
      · rcases List.mem_cons.mp hq with rfl | hq2
        · exact ⟨p, List.mem_cons_self p rest, hsub⟩
        · obtain ⟨p2, hp2, hs⟩ := ih (Or.inl hq2)
          exact ⟨p2, List.mem_cons_of_mem p hp2, hs⟩
      · obtain ⟨p2, hp2, hs⟩ := ih (Or.inr hq)
        exact ⟨p2, List.mem_cons_of_mem p hp2, hs⟩
    · have hsub : (if p.head? = some '/' then p.tail else p).Sublist p := by
        split
        · exact List.tail_sublist p
        · exact List.Sublist.refl p
      simp only [h1, if_false] at hq
      rcases hq with hq | hq
      · obtain ⟨p2, hp2, hs⟩ := ih (Or.inl hq)
        exact ⟨p2, List.mem_cons_of_mem p hp2, hs⟩
      · rcases List.mem_cons.mp hq with rfl | hq2
        · exact ⟨p, List.mem_cons_self p rest, hsub⟩
        · obtain ⟨p2, hp2, hs⟩ := ih (Or.inr hq2)
          exact ⟨p2, List.mem_cons_of_mem p hp2, hs⟩

/-- Counterexample to claim C10 as stated: for the single pattern
`a**b**c**`, only the first `**` and the first later `*` are rewritten, so
the assembled source is `^(a(.+)b([^\/]+)*c**)`, whose trailing `**`
is a quantifier with nothing to repeat; `new RegExp` throws and `toRegex`
fails. -/
theorem c10_counterexample :
    toRegex ["a**b**c**".toList] = none := by decide

/-- Amended claim C10: `toRegex` is not total — leftover untransformed
wildcards can produce a quantifier following a quantifier, an invalid
expression (see the counterexample) — but over every list of patterns
containing no `*` it is total: every metacharacter except `*` is escaped,
so no pattern can inject grouping, alternation, or anchoring structure
into the assembled expressions, and construction succeeds. -/
theorem c10_starfree_total (ps : List (List Char))
    (h : ∀ p ∈ ps, '*' ∉ p) : (toRegex ps).isSome = true := by
  rw [toRegex]
  have hacc : ∀ q ∈ (partitionPatterns ps).1, '*' ∉ q := by
    intro q hq hstarq
    obtain ⟨p, hp, hsub⟩ := partition_sub ps q (Or.inl hq)
    exact h p hp (hsub.subset hstarq)
  have hign : ∀ q ∈ (partitionPatterns ps).2, '*' ∉ q := by
    intro q hq hstarq
    obtain ⟨p, hp, hsub⟩ := partition_sub ps q (Or.inr hq)
    exact h p hp (hsub.subset hstarq)
  have h1 : ∃ a, (if (partitionPatterns ps).1.length > 0
      then parseRegex (buildSrc (partitionPatterns ps).1)
      else some sentinelAST) = some a := by
    split
    · rename_i hlen
      have hne : (partitionPatterns ps).1 ≠ [] := by
        intro he
        rw [he] at hlen
        simp at hlen
      exact parseRegex_some _ hne hacc
    · exact ⟨sentinelAST, rfl⟩
  have h2 : ∃ i, (if (partitionPatterns ps).2.length > 0
      then parseRegex (buildSrc (partitionPatterns ps).2)
      else some sentinelAST) = some i := by
    split
    · rename_i hlen
      have hne : (partitionPatterns ps).2 ≠ [] := by
        intro he
        rw [he] at hlen
        simp at hlen
      exact parseRegex_some _ hne hign
    · exact ⟨sentinelAST, rfl⟩
  obtain ⟨a, ha⟩ := h1
  obtain ⟨i, hi⟩ := h2
  rw [ha, hi]
  rfl

/-- Witness for C10 at the star-free pattern list `['a{b', '!/c']`. -/
theorem c10_starfree_total_witness :
    (toRegex ["a\x7bb".toList, "!/c".toList]).isSome = true :=
  c10_starfree_total ["a\x7bb".toList, "!/c".toList] (by decide)

end Gitignore
